import Mathlib

set_option maxHeartbeats 1000000

/-! Verification of the Concerto model-management core.

The definitions below are a shallow embedding of the JavaScript sources of
the repository: `lib/basemodelmanager.js`, `lib/introspect/modelfile.js` and
`lib/introspect/stringvalidator.js`.  A JavaScript object used as a keyed
map is embedded as an insertion-ordered association list (`Object.keys`
enumerates string keys in insertion order); JavaScript `Map.set` semantics
(later sets overwrite earlier ones) are embedded by a fold in which a later
matching entry wins.  Thrown exceptions are embedded with `Except`.
Components that the repository uses but whose sources are not present
(`ModelUtil`, the root model, `ClassDeclaration` internals, the
`Serializer` and the `InstanceGenerator`) are modelled from the
specification; each such definition carries a doc comment saying so. -/

inductive CErr
| typeNotFound (fqn : String)
| alreadyDeclared (ns : String)
| namespaceNotFound (ns : String)
| modelFileDoesNotExist
| illegalModel (msg : String)
| validationError (msg : String)
| recursionError (msg : String)
deriving DecidableEq, Repr

/-- Modelled from the spec: `ModelUtil.isPrimitiveType` (the `modelutil.js`
source is not present).  Primitive type names are the closed set
String, Boolean, DateTime, Double, Long, Integer. -/
def ModelUtil.isPrimitiveType (t : String) : Bool :=
  t == "String" || t == "Boolean" || t == "DateTime" || t == "Double" ||
  t == "Long" || t == "Integer"

/-- Modelled from the spec: `ModelUtil.getShortName` returns the part of a
fully qualified name after the last dot, or the whole string when there is
no dot. -/
def ModelUtil.getShortName (fqn : String) : String :=
  String.mk ((fqn.data.reverse.takeWhile (fun c => c != '.')).reverse)

/-- Modelled from the spec: `ModelUtil.getNamespace` returns the part of a
fully qualified name before the last dot, or the empty string when there is
no dot. -/
def ModelUtil.getNamespace (fqn : String) : String :=
  if '.' ∈ fqn.data then
    String.mk (((fqn.data.reverse.dropWhile (fun c => c != '.')).drop 1).reverse)
  else ""

/-- Embedding of JavaScript `String.prototype.startsWith`. -/
def strStartsWith (s p : String) : Bool := p.data.isPrefixOf s.data

inductive ImportDecl
| typeImport (ns name : String)
| allImport (ns : String)
deriving DecidableEq, Repr

inductive DeclKind
| asset
| participant
| transaction
| event
| concept
| enum
deriving DecidableEq, Repr

structure PropertyDecl where
  name : String
  ptype : String
  isArray : Bool
  isOptional : Bool
  isRelationship : Bool
deriving DecidableEq, Repr

/-- One class declaration of a model file.  `superType` holds the resolved
fully qualified name of the super type (`getSuperType()`), `ns` the
namespace of the owning model file. -/
structure ClassDecl where
  name : String
  ns : String
  kind : DeclKind
  isAbstract : Bool
  superType : Option String
  properties : List PropertyDecl
deriving DecidableEq, Repr

def ClassDecl.getFullyQualifiedName (d : ClassDecl) : String :=
  d.ns ++ "." ++ d.name

structure ModelFile where
  ns : String
  imports : List ImportDecl
  declarations : List ClassDecl
deriving DecidableEq, Repr

/-- The five built-in imports that the `ModelFile` constructor (`fromAst`)
pushes onto the import list of every non-`concerto` model file, in source
order. -/
def builtinImports : List ImportDecl :=
  [ .typeImport "concerto" "Concept",
    .typeImport "concerto" "Asset",
    .typeImport "concerto" "Transaction",
    .typeImport "concerto" "Participant",
    .typeImport "concerto" "Event" ]

/-- Embedding of the `ModelFile` constructor populating from an AST
(`fromAst`): the AST imports are cloned and the built-in `concerto` imports
are appended for every namespace other than `concerto`. -/
def mkModelFile (ns : String) (astImports : List ImportDecl)
    (decls : List ClassDecl) : ModelFile :=
  ⟨ns, astImports ++ (if ns = "concerto" then [] else builtinImports), decls⟩

/-- A keyed lookup in which a later matching entry wins, embedding repeated
JavaScript `Map.set` calls over a list of entries. -/
def assocLast (l : List α) (key : α → String) (val : α → β) (k : String) :
    Option β :=
  l.foldl (fun acc x => if key x = k then some (val x) else acc) none

def ModelFile.importShortNames (m : ModelFile) : List (String × String) :=
  m.imports.filterMap (fun i =>
    match i with
    | .typeImport ns n => some (n, ns ++ "." ++ n)
    | .allImport _ => none)

/-- The `importShortNames` map of a model file (`Map` from imported short
name to source FQN, later imports overwriting earlier ones). -/
def ModelFile.importShortNamesGet (m : ModelFile) (n : String) :
    Option String :=
  assocLast m.importShortNames Prod.fst Prod.snd n

def ModelFile.importWildcardNamespaces (m : ModelFile) : List String :=
  m.imports.filterMap (fun i =>
    match i with
    | .allImport ns => some ns
    | _ => none)

/-- The `localTypes` map built by the `ModelFile` constructor: key
`namespace + "." + declaration name`, later declarations overwriting
earlier ones with the same name. -/
def ModelFile.localTypesGet (m : ModelFile) (fqn : String) :
    Option ClassDecl :=
  assocLast m.declarations (fun d => m.ns ++ "." ++ d.name) id fqn

/-- Embedding of `ModelFile.getLocalType`: when the query does not start
with the file's namespace, the namespace is prepended before the
`localTypes` lookup. -/
def ModelFile.getLocalType (m : ModelFile) (type : String) :
    Option ClassDecl :=
  if strStartsWith type m.ns then m.localTypesGet type
  else m.localTypesGet (m.ns ++ "." ++ type)

/-- Embedding of `ModelFile.isLocalType` (the empty string is falsy in the
source, so it is never a local type). -/
def ModelFile.isLocalType (m : ModelFile) (type : String) : Bool :=
  type != "" && (m.getLocalType type).isSome

/-- The manager's `modelFiles` object: an insertion-ordered map from
namespace to `ModelFile`. -/
abbrev Manager := List (String × ModelFile)

/-- Embedding of `BaseModelManager.getModelFile` (a plain keyed lookup). -/
def getModelFile : Manager → String → Option ModelFile
| [], _ => none
| (k, f) :: rest, ns => if k = ns then some f else getModelFile rest ns

/-- Embedding of `ModelFile.isImportedType`: first the named-import map,
then each wildcard namespace in declaration order. -/
def ModelFile.isImportedType (st : Manager) (m : ModelFile)
    (type : String) : Bool :=
  if (m.importShortNamesGet type).isSome then true
  else m.importWildcardNamespaces.any (fun w =>
    match getModelFile st w with
    | some f => f.isLocalType type
    | none => false)

/-- Embedding of `ModelFile.resolveImport`; the throwing fall-through of
the source is embedded as `none`. -/
def ModelFile.resolveImport (st : Manager) (m : ModelFile)
    (type : String) : Option String :=
  match m.importShortNamesGet type with
  | some fqn => some fqn
  | none => m.importWildcardNamespaces.findSome? (fun w =>
      match getModelFile st w with
      | some f => if f.isLocalType type then some (w ++ "." ++ type) else none
      | none => none)

/-- Result of `ModelFile.getType`: the source returns either a class
declaration or, for a primitive type name, the name itself. -/
inductive TypeRes
| decl (d : ClassDecl)
| prim (name : String)
deriving DecidableEq, Repr

/-- Embedding of `ModelFile.getType`.  Note the branch order of the source:
primitives, then imported types (named imports, then wildcards), and local
declarations only when the type is not imported. -/
def ModelFile.getType (st : Manager) (m : ModelFile) (type : String) :
    Option TypeRes :=
  if ModelUtil.isPrimitiveType type then some (.prim type)
  else if m.isImportedType st type then
    match m.resolveImport st type with
    | none => none
    | some fqn =>
      match getModelFile st (ModelUtil.getNamespace fqn) with
      | none => none
      | some f => (f.getLocalType fqn).map TypeRes.decl
  else
    (m.getLocalType type).map TypeRes.decl

/-- Embedding of `ModelFile.getFullyQualifiedTypeName` (same branch order
as `getType`; the JavaScript crash on a missing import target is embedded
as `none`). -/
def ModelFile.getFullyQualifiedTypeName (st : Manager) (m : ModelFile)
    (type : String) : Option String :=
  if ModelUtil.isPrimitiveType type then some type
  else if m.isImportedType st type then
    match m.resolveImport st type with
    | none => none
    | some fqn =>
      match getModelFile st (ModelUtil.getNamespace fqn) with
      | none => none
      | some f => (f.getLocalType fqn).map ClassDecl.getFullyQualifiedName
  else
    (m.getLocalType type).map ClassDecl.getFullyQualifiedName

/-- Embedding of the import-checking loop of `ModelFile.validate`. -/
def validateImports (st : Manager) : List ImportDecl → Except CErr Unit
| [] => .ok ()
| .allImport ns :: rest =>
  match getModelFile st ns with
  | none => .error (.illegalModel ("unresolved import namespace " ++ ns))
  | some _ => validateImports st rest
| .typeImport ns n :: rest =>
  match getModelFile st ns with
  | none => .error (.illegalModel ("unresolved import namespace " ++ ns))
  | some f =>
    if f.isLocalType n then validateImports st rest
    else .error (.illegalModel ("unresolved imported type " ++ ns ++ "." ++ n))

def validateDecls (dv : ClassDecl → Except CErr Unit) :
    List ClassDecl → Except CErr Unit
| [] => .ok ()
| d :: rest =>
  match dv d with
  | .ok _ => validateDecls dv rest
  | .error e => .error e

/-- Embedding of `ModelFile.validate`: imports are checked first, then each
declaration is validated.  Declaration-level validation lives in
`classdeclaration.js`, which is not among the sources, so it is abstracted
as the parameter `dv`. -/
def ModelFile.validateE (st : Manager) (dv : ClassDecl → Except CErr Unit)
    (m : ModelFile) : Except CErr Unit :=
  match validateImports st m.imports with
  | .error e => .error e
  | .ok _ => validateDecls dv m.declarations

/-- Embedding of `BaseModelManager.addModelFile`: a fresh namespace is
validated (unless suppressed) and installed; an existing namespace throws
and leaves the map unchanged.  The pair returns the `modelFiles` map after
the call together with the result. -/
def BaseModelManager.addModelFile (st : Manager) (m : ModelFile)
    (disableValidation : Bool) (dv : ClassDecl → Except CErr Unit) :
    Manager × Except CErr ModelFile :=
  match getModelFile st m.ns with
  | none =>
    if disableValidation then (st ++ [(m.ns, m)], .ok m)
    else
      match m.validateE st dv with
      | .ok _ => (st ++ [(m.ns, m)], .ok m)
      | .error e => (st, .error e)
  | some _ => (st, .error (.alreadyDeclared m.ns))

/-- Embedding of `BaseModelManager.updateModelFile`: replaces an existing
namespace in place, fails with not-found otherwise. -/
def BaseModelManager.updateModelFile (st : Manager) (m : ModelFile)
    (disableValidation : Bool) (dv : ClassDecl → Except CErr Unit) :
    Manager × Except CErr ModelFile :=
  match getModelFile st m.ns with
  | none => (st, .error (.namespaceNotFound m.ns))
  | some _ =>
    if disableValidation then
      (st.map (fun p => if p.1 = m.ns then (p.1, m) else p), .ok m)
    else
      match m.validateE st dv with
      | .ok _ => (st.map (fun p => if p.1 = m.ns then (p.1, m) else p), .ok m)
      | .error e => (st, .error e)

/-- Embedding of `BaseModelManager.deleteModelFile`: an absent namespace
throws, otherwise the key is removed. -/
def BaseModelManager.deleteModelFile (st : Manager) (ns : String) :
    Manager × Except CErr Unit :=
  match getModelFile st ns with
  | none => (st, .error .modelFileDoesNotExist)
  | some _ => (st.filter (fun p => p.1 != ns), .ok ())

/-- The installation loop of `BaseModelManager.addModelFiles`: each file of
the batch is installed against the partially updated map, throwing on a
namespace that is already present. -/
def installLoop : Manager → List ModelFile → List ModelFile →
    Except CErr (Manager × List ModelFile)
| st, [], acc => .ok (st, acc.reverse)
| st, m :: rest, acc =>
  match getModelFile st m.ns with
  | none => installLoop (st ++ [(m.ns, m)]) rest (m :: acc)
  | some _ => .error (.alreadyDeclared m.ns)

def validateEntries (st : Manager) (dv : ClassDecl → Except CErr Unit) :
    List (String × ModelFile) → Except CErr Unit
| [] => .ok ()
| (_, f) :: rest =>
  match f.validateE st dv with
  | .ok _ => validateEntries st dv rest
  | .error e => .error e

/-- Embedding of `BaseModelManager.validateModelFiles`: every file of the
map is validated against the full map. -/
def BaseModelManager.validateModelFiles (st : Manager)
    (dv : ClassDecl → Except CErr Unit) : Except CErr Unit :=
  validateEntries st dv st

/-- Embedding of `BaseModelManager.addModelFiles`: a snapshot of the map is
taken, the batch is installed file by file, all files are then revalidated
(unless suppressed), and the catch block restores the snapshot on any
failure. -/
def BaseModelManager.addModelFiles (st : Manager) (files : List ModelFile)
    (disableValidation : Bool) (dv : ClassDecl → Except CErr Unit) :
    Manager × Except CErr (List ModelFile) :=
  match installLoop st files [] with
  | .error e => (st, .error e)
  | .ok (st2, newFiles) =>
    if disableValidation then (st2, .ok newFiles)
    else
      match BaseModelManager.validateModelFiles st2 dv with
      | .ok _ => (st2, .ok newFiles)
      | .error e => (st, .error e)

/-- Embedding of `BaseModelManager.getModelFiles`: all values of the map,
skipping the `concerto` key unless `includeConcertoNamespace` is set. -/
def BaseModelManager.getModelFiles (st : Manager)
    (includeConcertoNamespace : Bool) : List ModelFile :=
  st.filterMap (fun p =>
    if includeConcertoNamespace || p.1 != "concerto" then some p.2 else none)

/-- Embedding of `BaseModelManager.getNamespaces` (`Object.keys`). -/
def BaseModelManager.getNamespaces (st : Manager) : List String :=
  st.map Prod.fst

/-- Embedding of `BaseModelManager.getType`: the namespace part of the
query selects a model file, which then resolves the query; a missing file
or a falsy resolution throws `TypeNotFoundException`. -/
def BaseModelManager.getType (st : Manager) (qualifiedName : String) :
    Except CErr TypeRes :=
  match getModelFile st (ModelUtil.getNamespace qualifiedName) with
  | none => .error (.typeNotFound qualifiedName)
  | some m =>
    match m.getType st qualifiedName with
    | none => .error (.typeNotFound qualifiedName)
    | some r => .ok r

/-- Modelled from the spec: `ClassDeclaration.getSuperTypeDeclaration`
(the `classdeclaration.js` source is not present) resolves the recorded
super-type FQN through the declaration's own model file. -/
def ClassDecl.getSuperTypeDeclaration (st : Manager) (d : ClassDecl) :
    Option ClassDecl :=
  match d.superType with
  | none => none
  | some fqn =>
    match getModelFile st d.ns with
    | none => none
    | some f =>
      match f.getType st fqn with
      | some (.decl d2) => some d2
      | _ => none

/-- The while loop of `BaseModelManager.derivesFrom`, with explicit fuel
(the JavaScript loop terminates exactly when the super-type chain reaches
null). -/
def derivesFromLoop (st : Manager) (fqt2 : String) :
    Nat → Option ClassDecl → Bool
| 0, _ => false
| _ + 1, none => false
| n + 1, some d =>
  if d.getFullyQualifiedName = fqt2 then true
  else derivesFromLoop st fqt2 n (d.getSuperTypeDeclaration st)

/-- The chain of declarations the `derivesFrom` loop visits, with the same
fuel discipline. -/
def superChain (st : Manager) : Nat → Option ClassDecl → List ClassDecl
| 0, _ => []
| _ + 1, none => []
| n + 1, some d => d :: superChain st n (d.getSuperTypeDeclaration st)

/-- Embedding of `BaseModelManager.derivesFrom`.  When `getType` resolves
to a primitive name the JavaScript would crash calling a method on a
string; that crash is embedded as an error. -/
def BaseModelManager.derivesFrom (st : Manager) (fuel : Nat)
    (fqt1 fqt2 : String) : Except CErr Bool :=
  match BaseModelManager.getType st fqt1 with
  | .error e => .error e
  | .ok (.prim p) => .error (.illegalModel ("cannot derive from primitive " ++ p))
  | .ok (.decl d) => .ok (derivesFromLoop st fqt2 fuel (some d))

def idProp : PropertyDecl := ⟨"$identifier", "String", false, false, false⟩

def tsProp : PropertyDecl := ⟨"$timestamp", "DateTime", false, false, false⟩

/-- Modelled from the spec: the root model (`rootmodel.js` is not among the
sources) declares the abstract root types in the reserved `concerto`
namespace, each identified kind carrying the `$identifier` field and
transactions and events additionally a `$timestamp`. -/
def rootFile : ModelFile :=
  mkModelFile "concerto" []
    [ ⟨"Concept", "concerto", .concept, true, none, []⟩,
      ⟨"Asset", "concerto", .asset, true, some "concerto.Concept", [idProp]⟩,
      ⟨"Participant", "concerto", .participant, true, some "concerto.Concept", [idProp]⟩,
      ⟨"Transaction", "concerto", .transaction, true, some "concerto.Concept", [idProp, tsProp]⟩,
      ⟨"Event", "concerto", .event, true, some "concerto.Concept", [idProp, tsProp]⟩ ]

/-- A declaration-level validator that accepts everything; used where the
abstracted `classdeclaration.js` validation is irrelevant. -/
def dvOk : ClassDecl → Except CErr Unit := fun _ => .ok ()

/-- The manager state right after construction: the constructor starts from
an empty map and installs the root model (`addRootModel`). -/
def initState : Manager :=
  (BaseModelManager.addModelFile [] rootFile false dvOk).1

/-- Embedding of `BaseModelManager.clearModelFiles`: the map is emptied and
the root model reinstalled. -/
def BaseModelManager.clearModelFiles (_ : Manager) : Manager := initState

/-- The manager states reachable from construction through the mutating
operations, with deletion restricted to namespaces other than the reserved
`concerto` namespace. -/
inductive Reachable : Manager → Prop
| init : Reachable initState
| addFile (st : Manager) (m : ModelFile) (dis : Bool)
    (dv : ClassDecl → Except CErr Unit) : Reachable st →
    Reachable (BaseModelManager.addModelFile st m dis dv).1
| addFiles (st : Manager) (files : List ModelFile) (dis : Bool)
    (dv : ClassDecl → Except CErr Unit) : Reachable st →
    Reachable (BaseModelManager.addModelFiles st files dis dv).1
| update (st : Manager) (m : ModelFile) (dis : Bool)
    (dv : ClassDecl → Except CErr Unit) : Reachable st →
    Reachable (BaseModelManager.updateModelFile st m dis dv).1
| del (st : Manager) (ns : String) : Reachable st → ns ≠ "concerto" →
    Reachable (BaseModelManager.deleteModelFile st ns).1
| clear (st : Manager) : Reachable st →
    Reachable (BaseModelManager.clearModelFiles st)

structure RegexEngine (R : Type) where
  compile : String → Option String → Except String R
  test : R → String → Bool

structure StringValidatorS (R : Type) where
  pattern : String
  regex : R

/-- Embedding of the `StringValidator` constructor: the regular expression
is compiled (with the flags only when they are present and non-empty, per
JavaScript truthiness of `validator.flags`); a compilation exception is
reported as a model error.  The JavaScript `RegExp` platform primitive is
abstracted as a `RegexEngine`. -/
def StringValidator.make (eng : RegexEngine R) (pattern : String)
    (flags : Option String) : Except CErr (StringValidatorS R) :=
  match (match flags with
         | some fl =>
           if fl = "" then eng.compile pattern none
           else eng.compile pattern (some fl)
         | none => eng.compile pattern none) with
  | .ok r => .ok ⟨pattern, r⟩
  | .error msg => .error (.illegalModel msg)

/-- Embedding of `StringValidator.validate`: a null value passes, a
non-null value must match the compiled regular expression. -/
def StringValidator.validate (eng : RegexEngine R) (v : StringValidatorS R)
    (identifier : String) (value : Option String) : Except CErr Unit :=
  match value with
  | none => .ok ()
  | some s =>
    if eng.test v.regex s then .ok ()
    else .error (.validationError ("Value " ++ s ++
      " failed to match validation regex: " ++ v.pattern ++
      " in instance " ++ identifier))

/-- A JavaScript number: either a finite value or one of the non-finite
special values. -/
inductive JSNum
| finite (q : Rat)
| nan
| posInf
| negInf
deriving DecidableEq, Repr

def JSNum.isFinite : JSNum → Bool
| .finite _ => true
| _ => false

/-- The JavaScript string conversion of a number, as it appears in the
serializer's non-finite error messages. -/
def JSNum.display : JSNum → String
| .nan => "NaN"
| .posInf => "Infinity"
| .negInf => "-Infinity"
| .finite _ => "finite"

inductive JValue
| str (s : String)
| num (n : JSNum)
| boolv (b : Bool)
| nullv
| arr (xs : List JValue)
| obj (fields : List (String × JValue))

/-- Serializer options; only the `validate` flag is needed by the claims.
`none` is an absent key. -/
structure SerOptions where
  validate : Option Bool
deriving DecidableEq, Repr

def noOptions : SerOptions := ⟨none⟩

/-- Modelled from the spec: per-call options are merged over the
serializer's defaults (`Object.assign` semantics: a present key overrides
regardless of value, a missing key inherits), and validation defaults to
true when neither specifies it. -/
def effectiveValidate (defaults opts : SerOptions) : Bool :=
  match opts.validate with
  | some b => b
  | none =>
    match defaults.validate with
    | some b => b
    | none => true

/-- A typed instance as the serializer sees it: its dynamic `$class` FQN,
its identifier (none for concepts) and its present property values. -/
structure InstanceV where
  fqn : String
  identifier : Option String
  values : List (String × JValue)

def lookupVal : List (String × JValue) → String → Option JValue
| [], _ => none
| (k, v) :: rest, n => if k = n then some v else lookupVal rest n

/-- The `FQN#identifier` reference used by serializer error messages. -/
def instanceRef (inst : InstanceV) : String :=
  inst.fqn ++ "#" ++ (match inst.identifier with
                      | some i => i
                      | none => "")

def missingFieldMsg (inst : InstanceV) (field : String) : String :=
  "The instance \"" ++ instanceRef inst ++
  "\" is missing the required field \"" ++ field ++ "\"."

def nonFiniteMsg (inst : InstanceV) (field : String) (n : JSNum) : String :=
  "Model violation in the \"" ++ instanceRef inst ++
  "\" instance. The field \"" ++ field ++ "\" has a value of \"" ++
  n.display ++ "\"."

def isNumericPrimitive (t : String) : Bool :=
  t == "Double" || t == "Long" || t == "Integer"

/-- Modelled from the spec: serialization of one property.  A missing
non-optional value fails under validation and is silently omitted
otherwise; a non-finite numeric value fails under validation; everything
else is emitted unchanged. -/
def serializeProp (validate : Bool) (inst : InstanceV) (p : PropertyDecl) :
    Except CErr (Option (String × JValue)) :=
  match lookupVal inst.values p.name with
  | none =>
    if p.isOptional then .ok none
    else if validate then .error (.validationError (missingFieldMsg inst p.name))
    else .ok none
  | some v =>
    match v with
    | .num n =>
      if validate && isNumericPrimitive p.ptype && !n.isFinite then
        .error (.validationError (nonFiniteMsg inst p.name n))
      else .ok (some (p.name, v))
    | _ => .ok (some (p.name, v))

def serializeProps (validate : Bool) (inst : InstanceV) :
    List PropertyDecl → Except CErr (List (String × JValue))
| [] => .ok []
| p :: ps =>
  match serializeProp validate inst p with
  | .error e => .error e
  | .ok head =>
    match serializeProps validate inst ps with
    | .error e => .error e
    | .ok rest =>
      .ok (match head with
           | some kv => kv :: rest
           | none => rest)

/-- Modelled from the spec: `Serializer.toJSON` (the serializer sources are
not present; behavior follows §4.6 and the serializer tests).  The object
starts with `$class`, identifiable instances also emit `$identifier`, and
the properties follow in declaration order under the effective validation
flag. -/
def Serializer.toJSON (defaults : SerOptions) (decl : ClassDecl)
    (inst : InstanceV) (opts : SerOptions) : Except CErr JValue :=
  match serializeProps (effectiveValidate defaults opts) inst decl.properties with
  | .error e => .error e
  | .ok fields =>
    .ok (.obj (("$class", .str inst.fqn) ::
      ((match inst.identifier with
        | some i => [("$identifier", JValue.str i)]
        | none => []) ++ fields)))

/-- A value produced by the instance generator. -/
inductive GenValue
| prim (v : JValue)
| enumv (s : String)
| resource (fqn : String) (fields : List (String × Option GenValue))
| rel (fqn id : String)
| arr (xs : List GenValue)

/-- The pluggable value-generation strategy of the instance generator: the
`empty` strategy emits empty arrays, the `sample` strategy one sampled
element. -/
structure ValueGenerator where
  primValue : String → JValue
  enumPick : List String → Option String
  oneArrayElement : Bool
  relId : String

def allDecls (st : Manager) : List ClassDecl :=
  (st.map (fun p => p.2.declarations)).flatten

def getTypeDecl (st : Manager) (fqn : String) : Option ClassDecl :=
  match BaseModelManager.getType st fqn with
  | .ok (.decl d) => some d
  | _ => none

/-- Modelled from the spec: the concrete-subclass picker of the instance
generator picks the declaration itself when it is concrete, and otherwise
the first non-abstract assignable descendant in stable declaration order. -/
def findConcreteSubclass (st : Manager) (d : ClassDecl) : Option ClassDecl :=
  if !d.isAbstract then some d
  else (allDecls st).find? (fun c => !c.isAbstract &&
    derivesFromLoop st d.getFullyQualifiedName ((allDecls st).length + 1) (some c))

/-- Wraps a generated element according to the arrayness of the field and
the array behavior of the strategy. -/
def genResultWrap (f : PropertyDecl) (one : Bool) (v : GenValue) :
    Option GenValue :=
  if f.isArray then some (.arr (if one then [v] else [])) else some v

def genPropsWith (g : PropertyDecl → Except CErr (Option GenValue)) :
    List PropertyDecl → Except CErr (List (String × Option GenValue))
| [] => .ok []
| p :: ps =>
  match g p with
  | .error e => .error e
  | .ok v =>
    match genPropsWith g ps with
    | .error e => .error e
    | .ok rest => .ok ((p.name, v) :: rest)

/-- Modelled from the spec (§4.7): one step of the instance generator's
field visit.  Optional fields are generated only when requested;
primitives ask the value generator; relationships build a reference with a
synthetic identifier; enums pick a value; object fields resolve their
declaration, pick a concrete subclass, and then check the seen stack: a
recursive array yields the empty array, a recursive optional field yields
no value, and a recursive required scalar fails with the
model-is-recursive error. -/
def genFieldAux (st : Manager) (vg : ValueGenerator) (includeOpt : Bool)
    (recFn : List String → PropertyDecl → Except CErr (Option GenValue))
    (seen : List String) (f : PropertyDecl) :
    Except CErr (Option GenValue) :=
  if f.isOptional && !includeOpt then .ok none
  else if ModelUtil.isPrimitiveType f.ptype then
    .ok (genResultWrap f vg.oneArrayElement (.prim (vg.primValue f.ptype)))
  else
    match getTypeDecl st f.ptype with
    | none => .error (.typeNotFound f.ptype)
    | some d =>
      if f.isRelationship then
        match findConcreteSubclass st d with
        | none => .error (.illegalModel
            ("No concrete extending type for " ++ d.getFullyQualifiedName))
        | some c =>
          .ok (genResultWrap f vg.oneArrayElement
            (.rel c.getFullyQualifiedName vg.relId))
      else
        match d.kind with
        | .enum =>
          match vg.enumPick (d.properties.map PropertyDecl.name) with
          | none => .error (.illegalModel "empty enum")
          | some s => .ok (genResultWrap f vg.oneArrayElement (.enumv s))
        | _ =>
          match findConcreteSubclass st d with
          | none => .error (.illegalModel
              ("No concrete extending type for " ++ d.getFullyQualifiedName))
          | some c =>
            if seen.contains c.getFullyQualifiedName then
              if f.isArray then .ok (some (.arr []))
              else if f.isOptional then .ok none
              else .error (.recursionError "Model is recursive.")
            else
              match genPropsWith (recFn (c.getFullyQualifiedName :: seen))
                  c.properties with
              | .error e => .error e
              | .ok fields =>
                .ok (genResultWrap f vg.oneArrayElement
                  (.resource c.getFullyQualifiedName fields))

/-- The instance generator's field visit, tied off with fuel for the
nesting depth. -/
def genField (st : Manager) (vg : ValueGenerator) (includeOpt : Bool) :
    Nat → List String → PropertyDecl → Except CErr (Option GenValue)
| 0 => fun _ _ => .error (.illegalModel "generator fuel exhausted")
| n + 1 => fun seen f =>
    genFieldAux st vg includeOpt (genField st vg includeOpt n) seen f

theorem takeWhile_append_all (p : Char → Bool) (l r : List Char)
    (h : ∀ a ∈ l, p a = true) :
    (l ++ r).takeWhile p = l ++ r.takeWhile p := by
  induction l with
  | nil => simp
  | cons a as ih =>
    have ha := h a (by simp)
    have hrest : ∀ x ∈ as, p x = true := fun x hx => h x (by simp [hx])
    simp [List.takeWhile_cons, ha, ih hrest]

theorem dropWhile_append_all (p : Char → Bool) (l r : List Char)
    (h : ∀ a ∈ l, p a = true) :
    (l ++ r).dropWhile p = r.dropWhile p := by
  induction l with
  | nil => simp
  | cons a as ih =>
    have ha := h a (by simp)
    have hrest : ∀ x ∈ as, p x = true := fun x hx => h x (by simp [hx])
    simp [List.dropWhile_cons, ha, ih hrest]

theorem fqn_data (ns t : String) :
    (ns ++ "." ++ t).data = ns.data ++ '.' :: t.data := by
  rw [String.data_append, String.data_append]
  have h1 : ("." : String).data = ['.'] := rfl
  rw [h1, List.append_assoc]
  rfl

theorem getNamespace_append (ns t : String) (h : '.' ∉ t.data) :
    ModelUtil.getNamespace (ns ++ "." ++ t) = ns := by
  have hd : '.' ∈ (ns ++ "." ++ t).data := by
    rw [fqn_data]
    exact List.mem_append_right _ (List.mem_cons_self _ _)
  have hall : ∀ a ∈ t.data.reverse, (a != '.') = true := by
    intro a ha
    have : a ∈ t.data := List.mem_reverse.mp ha
    simp only [bne_iff_ne, ne_eq]
    intro he
    exact h (he ▸ this)
  rw [ModelUtil.getNamespace, if_pos hd, fqn_data]
  have hrv : (ns.data ++ '.' :: t.data).reverse
      = t.data.reverse ++ '.' :: ns.data.reverse := by simp
  rw [hrv, dropWhile_append_all _ _ _ hall]
  apply String.ext
  simp [List.dropWhile_cons]

theorem notPrim_of_dot (q : String) (h : '.' ∈ q.data) :
    ModelUtil.isPrimitiveType q = false := by
  have k : ∀ s : String, '.' ∉ s.data → q ≠ s := by
    intro s hs he
    exact hs (he ▸ h)
  simp only [ModelUtil.isPrimitiveType, Bool.or_eq_false_iff, beq_eq_false_iff_ne]
  refine ⟨⟨⟨⟨⟨?_, ?_⟩, ?_⟩, ?_⟩, ?_⟩, ?_⟩ <;>
    first
    | exact k "String" (by decide)
    | exact k "Boolean" (by decide)
    | exact k "DateTime" (by decide)
    | exact k "Double" (by decide)
    | exact k "Long" (by decide)
    | exact k "Integer" (by decide)

theorem startsWith_append_self (ns t : String) :
    strStartsWith (ns ++ "." ++ t) ns = true := by
  rw [strStartsWith, fqn_data, List.isPrefixOf_iff_prefix]
  exact ⟨'.' :: t.data, rfl⟩

theorem str_append_cancel_left (w x y : String) (h : w ++ x = w ++ y) :
    x = y := by
  apply String.ext
  have hd := congrArg String.data h
  rw [String.data_append, String.data_append] at hd
  exact List.append_cancel_left hd

theorem seg_unique (ns1 t1 ns2 t2 : String) (h1 : '.' ∉ t1.data)
    (h2 : '.' ∉ t2.data) (he : ns1 ++ "." ++ t1 = ns2 ++ "." ++ t2) :
    ns1 = ns2 ∧ t1 = t2 := by
  have hd := congrArg String.data he
  rw [fqn_data, fqn_data] at hd
  have hall1 : ∀ a ∈ t1.data.reverse, (a != '.') = true := by
    intro a ha
    simp only [bne_iff_ne, ne_eq]
    intro he2
    exact h1 (he2 ▸ List.mem_reverse.mp ha)
  have hall2 : ∀ a ∈ t2.data.reverse, (a != '.') = true := by
    intro a ha
    simp only [bne_iff_ne, ne_eq]
    intro he2
    exact h2 (he2 ▸ List.mem_reverse.mp ha)
  have hsh : t1.data.reverse ++ '.' :: ns1.data.reverse
      = t2.data.reverse ++ '.' :: ns2.data.reverse := by
    have e1 : (ns1.data ++ '.' :: t1.data).reverse
        = t1.data.reverse ++ '.' :: ns1.data.reverse := by simp
    have e2 : (ns2.data ++ '.' :: t2.data).reverse
        = t2.data.reverse ++ '.' :: ns2.data.reverse := by simp
    rw [← e1, ← e2, hd]
  have htw := congrArg (List.takeWhile (fun c => c != '.')) hsh
  rw [takeWhile_append_all _ _ _ hall1, takeWhile_append_all _ _ _ hall2] at htw
  simp only [List.takeWhile_cons, bne_self_eq_false] at htw
  have ht : t1 = t2 := by
    apply String.ext
    have hr := congrArg List.reverse htw
    simpa using hr
  refine ⟨?_, ht⟩
  apply String.ext
  have hd2 : ns1.data ++ '.' :: t2.data = ns2.data ++ '.' :: t2.data := by
    rw [← ht] at hd ⊢
    exact hd
  exact List.append_cancel_right hd2

theorem dot_mem_fqn (ns t : String) : '.' ∈ (ns ++ "." ++ t).data := by
  rw [fqn_data]
  exact List.mem_append_right _ (List.mem_cons_self _ _)

theorem assocLast_acc (l : List α) (key : α → String) (val : α → β)
    (k : String) (acc : Option β) (h : ∀ x ∈ l, key x ≠ k) :
    l.foldl (fun acc x => if key x = k then some (val x) else acc) acc = acc := by
  induction l generalizing acc with
  | nil => rfl
  | cons a as ih =>
    have ha := h a (by simp)
    simp only [List.foldl_cons, if_neg ha]
    exact ih acc (fun x hx => h x (by simp [hx]))

theorem assocLast_eq_none (l : List α) (key : α → String) (val : α → β)
    (k : String) (h : ∀ x ∈ l, key x ≠ k) :
    assocLast l key val k = none :=
  assocLast_acc l key val k none h

theorem assocLast_some_acc (l : List α) (key : α → String) (val : α → β)
    (k : String) (acc : Option β) (b : β)
    (h : l.foldl (fun acc x => if key x = k then some (val x) else acc) acc
      = some b) :
    (∃ x ∈ l, key x = k ∧ val x = b) ∨ acc = some b := by
  induction l generalizing acc with
  | nil => exact Or.inr h
  | cons a as ih =>
    simp only [List.foldl_cons] at h
    rcases ih _ h with ⟨x, hx, hk, hv⟩ | hacc
    · exact Or.inl ⟨x, by simp [hx], hk, hv⟩
    · by_cases hka : key a = k
      · rw [if_pos hka] at hacc
        exact Or.inl ⟨a, by simp, hka, Option.some.inj hacc⟩
      · rw [if_neg hka] at hacc
        exact Or.inr hacc

theorem assocLast_some (l : List α) (key : α → String) (val : α → β)
    (k : String) (b : β) (h : assocLast l key val k = some b) :
    ∃ x ∈ l, key x = k ∧ val x = b := by
  rcases assocLast_some_acc l key val k none b h with hx | hbad
  · exact hx
  · cases hbad

theorem getModelFile_mem (st : Manager) (k : String) (f : ModelFile)
    (h : getModelFile st k = some f) : (k, f) ∈ st := by
  induction st with
  | nil => cases h
  | cons p rest ih =>
    obtain ⟨k2, f2⟩ := p
    rw [getModelFile] at h
    by_cases hk : k2 = k
    · rw [if_pos hk] at h
      subst hk
      exact (Option.some.inj h) ▸ List.mem_cons_self _ _
    · rw [if_neg hk] at h
      exact List.mem_cons_of_mem _ (ih h)

theorem getModelFile_eq_none (st : Manager) (k : String)
    (h : ∀ p ∈ st, p.1 ≠ k) : getModelFile st k = none := by
  induction st with
  | nil => rfl
  | cons p rest ih =>
    obtain ⟨k2, f2⟩ := p
    rw [getModelFile, if_neg (h (k2, f2) (by simp))]
    exact ih (fun x hx => h x (by simp [hx]))

theorem getModelFile_none_forall (st : Manager) (k : String)
    (h : getModelFile st k = none) : ∀ p ∈ st, p.1 ≠ k := by
  induction st with
  | nil => intro p hp; cases hp
  | cons q rest ih =>
    obtain ⟨k2, f2⟩ := q
    rw [getModelFile] at h
    by_cases hk : k2 = k
    · rw [if_pos hk] at h
      cases h
    · rw [if_neg hk] at h
      intro p hp
      rcases List.mem_cons.mp hp with he | hm
      · rw [he]
        exact hk
      · exact ih h p hm

theorem filter_all_keep (st : Manager) (ns : String)
    (h : ∀ p ∈ st, p.1 ≠ ns) : st.filter (fun p => p.1 != ns) = st := by
  induction st with
  | nil => rfl
  | cons p rest ih =>
    have hp : (p.1 != ns) = true := by
      simp only [bne_iff_ne, ne_eq]
      exact h p (by simp)
    simp only [List.filter_cons, hp, if_true]
    rw [ih (fun x hx => h x (by simp [hx]))]

theorem getModelFile_append_self (st : Manager) (k : String) (f : ModelFile)
    (h : getModelFile st k = none) :
    getModelFile (st ++ [(k, f)]) k = some f := by
  induction st with
  | nil => simp [getModelFile]
  | cons p rest ih =>
    obtain ⟨k2, f2⟩ := p
    rw [getModelFile] at h
    by_cases hk : k2 = k
    · rw [if_pos hk] at h
      cases h
    · rw [if_neg hk] at h
      simp only [List.cons_append, getModelFile, if_neg hk]
      exact ih h

theorem delete_append_self (st : Manager) (k : String) (f : ModelFile)
    (h : getModelFile st k = none) :
    BaseModelManager.deleteModelFile (st ++ [(k, f)]) k = (st, .ok ()) := by
  rw [BaseModelManager.deleteModelFile, getModelFile_append_self st k f h]
  have hk : ∀ p ∈ st, p.1 ≠ k := getModelFile_none_forall st k h
  rw [List.filter_append, filter_all_keep st k hk]
  simp [List.filter_cons]

/-- Claim C8: adding a model file for an unregistered namespace and then
deleting that namespace restores the manager's map (hence its namespace
set) exactly; deleting an absent namespace fails and changes nothing;
adding an already registered namespace fails with the already-declared
error and changes nothing. -/
theorem claim_c8 (st : Manager) (m : ModelFile) (dis : Bool)
    (dv : ClassDecl → Except CErr Unit) (ns : String) :
    (getModelFile st m.ns = none →
      ∀ st2 r, BaseModelManager.addModelFile st m dis dv = (st2, .ok r) →
        BaseModelManager.deleteModelFile st2 m.ns = (st, .ok ())) ∧
    (getModelFile st ns = none →
      BaseModelManager.deleteModelFile st ns
        = (st, .error .modelFileDoesNotExist)) ∧
    ((∃ f, getModelFile st m.ns = some f) →
      BaseModelManager.addModelFile st m dis dv
        = (st, .error (.alreadyDeclared m.ns))) := by
  refine ⟨?_, ?_, ?_⟩
  · intro habs st2 r hadd
    simp only [BaseModelManager.addModelFile, habs] at hadd
    by_cases hd : dis = true
    · rw [if_pos hd] at hadd
      have h1 := congrArg Prod.fst hadd
      simp only at h1
      rw [← h1]
      exact delete_append_self st m.ns m habs
    · rw [if_neg hd] at hadd
      cases hv : m.validateE st dv with
      | ok u =>
        rw [hv] at hadd
        have h1 := congrArg Prod.fst hadd
        simp only at h1
        rw [← h1]
        exact delete_append_self st m.ns m habs
      | error e =>
        rw [hv] at hadd
        have h2 := congrArg Prod.snd hadd
        simp only at h2
        cases h2
  · intro habs
    simp only [BaseModelManager.deleteModelFile, habs]
  · intro hex
    obtain ⟨f, hf⟩ := hex
    simp only [BaseModelManager.addModelFile, hf]

theorem claim_c8_witness :
    BaseModelManager.deleteModelFile
      (BaseModelManager.addModelFile initState (mkModelFile "org.acme" [] [])
        false dvOk).1 "org.acme" = (initState, .ok ()) ∧
    BaseModelManager.deleteModelFile initState "org.acme"
      = (initState, .error .modelFileDoesNotExist) ∧
    BaseModelManager.addModelFile initState rootFile false dvOk
      = (initState, .error (.alreadyDeclared "concerto")) := by
  have h := claim_c8 initState (mkModelFile "org.acme" [] []) false dvOk "org.acme"
  have h2 := claim_c8 initState rootFile false dvOk "org.acme"
  refine ⟨?_, ?_, ?_⟩
  · exact h.1 rfl (initState ++ [("org.acme", mkModelFile "org.acme" [] [])])
      (mkModelFile "org.acme" [] []) rfl
  · exact h.2.1 rfl
  · exact h2.2.2 ⟨rootFile, rfl⟩

theorem installLoop_ok (files : List ModelFile) :
    ∀ (st : Manager) (acc : List ModelFile) (st2 : Manager)
      (nf : List ModelFile), installLoop st files acc = .ok (st2, nf) →
      st2 = st ++ files.map (fun m => (m.ns, m)) ∧
      nf = acc.reverse ++ files := by
  induction files with
  | nil =>
    intro st acc st2 nf h
    rw [installLoop] at h
    cases h
    simp
  | cons m rest ih =>
    intro st acc st2 nf h
    rw [installLoop] at h
    cases hg : getModelFile st m.ns with
    | none =>
      rw [hg] at h
      obtain ⟨h1, h2⟩ := ih (st ++ [(m.ns, m)]) (m :: acc) st2 nf h
      constructor
      · rw [h1]
        simp
      · rw [h2]
        simp
    | some f =>
      rw [hg] at h
      cases h

/-- Claim C2: batch add is all-or-nothing.  On any failure (a duplicate
namespace during installation or a validation failure at the end) the
namespace-to-ModelFile map after the call equals the map before the call;
on success every file of the batch is installed (appended in order) and
returned. -/
theorem claim_c2 (st : Manager) (files : List ModelFile) (dis : Bool)
    (dv : ClassDecl → Except CErr Unit) :
    (∀ e, (BaseModelManager.addModelFiles st files dis dv).2 = .error e →
      (BaseModelManager.addModelFiles st files dis dv).1 = st) ∧
    (∀ nf, (BaseModelManager.addModelFiles st files dis dv).2 = .ok nf →
      nf = files ∧
      (BaseModelManager.addModelFiles st files dis dv).1
        = st ++ files.map (fun m => (m.ns, m))) := by
  cases hi : installLoop st files [] with
  | error e0 =>
    constructor
    · intro e _
      simp [BaseModelManager.addModelFiles, hi]
    · intro nf hok
      simp [BaseModelManager.addModelFiles, hi] at hok
  | ok p =>
    obtain ⟨st2, nf0⟩ := p
    obtain ⟨hst2, hnf0⟩ := installLoop_ok files st [] st2 nf0 hi
    by_cases hd : dis = true
    · constructor
      · intro e he
        simp [BaseModelManager.addModelFiles, hi, hd] at he
      · intro nf hok
        simp only [BaseModelManager.addModelFiles, hi, hd, if_true] at hok ⊢
        cases hok
        constructor
        · rw [hnf0]
          simp
        · exact hst2
    · cases hv : BaseModelManager.validateModelFiles st2 dv with
      | ok u =>
        constructor
        · intro e he
          simp [BaseModelManager.addModelFiles, hi, hd, hv] at he
        · intro nf hok
          simp only [BaseModelManager.addModelFiles, hi, hd, if_false, hv] at hok ⊢
          cases hok
          constructor
          · rw [hnf0]
            simp
          · simp [hst2]
      | error e0 =>
        constructor
        · intro e _
          simp [BaseModelManager.addModelFiles, hi, hd, hv]
        · intro nf hok
          simp [BaseModelManager.addModelFiles, hi, hd, hv] at hok

theorem claim_c2_witness :
    ((BaseModelManager.addModelFiles initState
        [mkModelFile "x.y" [] [], mkModelFile "x.y" [] []] true dvOk).1
      = initState) ∧
    ((BaseModelManager.addModelFiles initState
        [mkModelFile "a.b" [.typeImport "no.where" "T"] []] false dvOk).1
      = initState) ∧
    ((BaseModelManager.addModelFiles initState
        [mkModelFile "m.n" [] []] false dvOk).1
      = initState ++ [("m.n", mkModelFile "m.n" [] [])]) := by
  refine ⟨?_, ?_, ?_⟩
  · exact (claim_c2 initState
      [mkModelFile "x.y" [] [], mkModelFile "x.y" [] []] true dvOk).1
      (.alreadyDeclared "x.y") rfl
  · exact (claim_c2 initState
      [mkModelFile "a.b" [.typeImport "no.where" "T"] []] false dvOk).1
      (.illegalModel "unresolved import namespace no.where") rfl
  · exact ((claim_c2 initState [mkModelFile "m.n" [] []] false dvOk).2
      [mkModelFile "m.n" [] []] rfl).2

theorem addModelFile_fst (st : Manager) (m : ModelFile) (dis : Bool)
    (dv : ClassDecl → Except CErr Unit) :
    (BaseModelManager.addModelFile st m dis dv).1 = st ∨
    (BaseModelManager.addModelFile st m dis dv).1 = st ++ [(m.ns, m)] := by
  rw [BaseModelManager.addModelFile]
  cases getModelFile st m.ns with
  | none =>
    by_cases hd : dis = true
    · rw [if_pos hd]
      exact Or.inr rfl
    · rw [if_neg hd]
      cases m.validateE st dv with
      | ok u => exact Or.inr rfl
      | error e => exact Or.inl rfl
  | some f => exact Or.inl rfl

theorem addModelFiles_fst (st : Manager) (files : List ModelFile)
    (dis : Bool) (dv : ClassDecl → Except CErr Unit) :
    (BaseModelManager.addModelFiles st files dis dv).1 = st ∨
    (BaseModelManager.addModelFiles st files dis dv).1
      = st ++ files.map (fun m => (m.ns, m)) := by
  rw [BaseModelManager.addModelFiles]
  cases hi : installLoop st files [] with
  | error e => exact Or.inl rfl
  | ok p =>
    obtain ⟨st2, nf⟩ := p
    obtain ⟨hst2, _⟩ := installLoop_ok files st [] st2 nf hi
    dsimp only
    by_cases hd : dis = true
    · rw [if_pos hd]
      exact Or.inr hst2
    · rw [if_neg hd]
      cases BaseModelManager.validateModelFiles st2 dv with
      | ok u => exact Or.inr hst2
      | error e => exact Or.inl rfl

theorem updateModelFile_fst (st : Manager) (m : ModelFile) (dis : Bool)
    (dv : ClassDecl → Except CErr Unit) :
    (BaseModelManager.updateModelFile st m dis dv).1 = st ∨
    (BaseModelManager.updateModelFile st m dis dv).1
      = st.map (fun p => if p.1 = m.ns then (p.1, m) else p) := by
  rw [BaseModelManager.updateModelFile]
  cases getModelFile st m.ns with
  | none => exact Or.inl rfl
  | some f =>
    by_cases hd : dis = true
    · rw [if_pos hd]
      exact Or.inr rfl
    · rw [if_neg hd]
      cases m.validateE st dv with
      | ok u => exact Or.inr rfl
      | error e => exact Or.inl rfl

theorem keys_map_replace (st : Manager) (n : String) (m : ModelFile) :
    (st.map (fun p => if p.1 = n then (p.1, m) else p)).map Prod.fst
      = st.map Prod.fst := by
  induction st with
  | nil => rfl
  | cons p rest ih =>
    by_cases hp : p.1 = n
    · simp only [List.map_cons, if_pos hp, ih]
    · simp only [List.map_cons, if_neg hp, ih]

theorem mem_keys_filter (st : Manager) (ns k : String) (hne : k ≠ ns)
    (hk : k ∈ st.map Prod.fst) :
    k ∈ (st.filter (fun p => p.1 != ns)).map Prod.fst := by
  obtain ⟨p, hp, hpk⟩ := List.mem_map.mp hk
  refine List.mem_map.mpr ⟨p, List.mem_filter.mpr ⟨hp, ?_⟩, hpk⟩
  simp only [bne_iff_ne, ne_eq]
  rw [hpk]
  exact hne

theorem reachable_concerto (st : Manager) (h : Reachable st) :
    "concerto" ∈ BaseModelManager.getNamespaces st := by
  induction h with
  | init => decide
  | addFile st0 m dis dv hr ih =>
    rcases addModelFile_fst st0 m dis dv with he | he <;> rw [he]
    · exact ih
    · rw [BaseModelManager.getNamespaces, List.map_append]
      exact List.mem_append_left _ ih
  | addFiles st0 files dis dv hr ih =>
    rcases addModelFiles_fst st0 files dis dv with he | he <;> rw [he]
    · exact ih
    · rw [BaseModelManager.getNamespaces, List.map_append]
      exact List.mem_append_left _ ih
  | update st0 m dis dv hr ih =>
    rcases updateModelFile_fst st0 m dis dv with he | he <;> rw [he]
    · exact ih
    · rw [BaseModelManager.getNamespaces, keys_map_replace]
      exact ih
  | del st0 ns hr hne ih =>
    rw [BaseModelManager.deleteModelFile]
    cases getModelFile st0 ns with
    | none => exact ih
    | some f => exact mem_keys_filter st0 ns "concerto" (Ne.symm hne) ih
  | clear st0 hr ih =>
    exact (by decide : "concerto" ∈ BaseModelManager.getNamespaces initState)

/-- Claim C10 (amended): `getModelFiles` without the
`includeConcertoNamespace` flag only returns files registered under a key
other than `concerto`, while a file registered under `concerto` is
returned once the flag is set; `getNamespaces` contains `concerto` in the
initial state, after `clearModelFiles`, and in every state reachable
without deleting the `concerto` namespace itself. -/
theorem claim_c10 :
    (∀ (st : Manager) (f : ModelFile),
      f ∈ BaseModelManager.getModelFiles st false →
      ∃ k, (k, f) ∈ st ∧ k ≠ "concerto") ∧
    (∀ (st : Manager) (f : ModelFile), ("concerto", f) ∈ st →
      f ∈ BaseModelManager.getModelFiles st true) ∧
    (∀ st : Manager, Reachable st →
      "concerto" ∈ BaseModelManager.getNamespaces st) ∧
    (∀ st : Manager,
      BaseModelManager.getNamespaces (BaseModelManager.clearModelFiles st)
        = ["concerto"]) := by
  refine ⟨?_, ?_, reachable_concerto, ?_⟩
  · intro st f hf
    rw [BaseModelManager.getModelFiles] at hf
    obtain ⟨p, hp, hg⟩ := List.mem_filterMap.mp hf
    by_cases hc : p.1 != "concerto"
    · rw [if_pos (by simp [hc])] at hg
      cases hg
      exact ⟨p.1, by simpa using hp, by simpa using hc⟩
    · rw [Bool.false_or, if_neg hc] at hg
      cases hg
  · intro st f hf
    rw [BaseModelManager.getModelFiles]
    exact List.mem_filterMap.mpr ⟨("concerto", f), hf, by simp⟩
  · intro st
    rfl

theorem claim_c10_witness :
    ("org.x", mkModelFile "org.x" [] []) ∈
      (BaseModelManager.addModelFile initState (mkModelFile "org.x" [] [])
        true dvOk).1 ∧
    rootFile ∈ BaseModelManager.getModelFiles initState true ∧
    "concerto" ∈ BaseModelManager.getNamespaces
      (BaseModelManager.addModelFile initState (mkModelFile "org.x" [] [])
        true dvOk).1 := by
  refine ⟨by decide, claim_c10.2.1 initState rootFile (by decide), ?_⟩
  exact claim_c10.2.2.1 _
    (Reachable.addFile initState (mkModelFile "org.x" [] []) true dvOk
      Reachable.init)

theorem claim_c10_counterexample :
    (BaseModelManager.deleteModelFile initState "concerto").2 = .ok () ∧
    "concerto" ∉ BaseModelManager.getNamespaces
      (BaseModelManager.deleteModelFile initState "concerto").1 := by
  constructor
  · rfl
  · decide

theorem derivesFromLoop_eq_any (st : Manager) (b : String) :
    ∀ (n : Nat) (od : Option ClassDecl),
      derivesFromLoop st b n od
        = (superChain st n od).any (fun d => d.getFullyQualifiedName == b) := by
  intro n
  induction n with
  | zero =>
    intro od
    cases od <;> rfl
  | succ k ih =>
    intro od
    cases od with
    | none => rfl
    | some d =>
      rw [derivesFromLoop, superChain, List.any_cons]
      by_cases hf : d.getFullyQualifiedName = b
      · simp [hf]
      · rw [if_neg hf, ih]
        simp [hf]

/-- Claim C4: for a fully qualified name `a` that the manager resolves to a
declaration whose FQN is `a`, `derivesFrom(a, b)` is true exactly when `b`
equals `a` or `b` is the FQN of a declaration on `a`'s (fuel-bounded)
transitive super-type chain; in particular `derivesFrom(a, a)` is true. -/
theorem claim_c4 (st : Manager) (a b : String) (d : ClassDecl) (n : Nat)
    (h1 : BaseModelManager.getType st a = .ok (.decl d))
    (h2 : d.getFullyQualifiedName = a) :
    (BaseModelManager.derivesFrom st (n + 1) a b = .ok true ↔
      b = a ∨ ∃ d2 ∈ superChain st n (d.getSuperTypeDeclaration st),
        d2.getFullyQualifiedName = b) ∧
    BaseModelManager.derivesFrom st (n + 1) a a = .ok true := by
  have key : ∀ c, BaseModelManager.derivesFrom st (n + 1) a c
      = .ok ((d.getFullyQualifiedName == c) ||
        (superChain st n (d.getSuperTypeDeclaration st)).any
          (fun x => x.getFullyQualifiedName == c)) := by
    intro c
    rw [BaseModelManager.derivesFrom, h1]
    dsimp only
    rw [derivesFromLoop_eq_any]
    congr 1
  constructor
  · rw [key b]
    simp only [Except.ok.injEq, Bool.or_eq_true, List.any_eq_true, beq_iff_eq]
    constructor
    · rintro (hfb | ⟨x, hx, hxb⟩)
      · exact Or.inl (h2 ▸ hfb.symm)
      · exact Or.inr ⟨x, hx, hxb⟩
    · rintro (hba | ⟨x, hx, hxb⟩)
      · refine Or.inl ?_
        rw [h2, ← hba]
      · exact Or.inr ⟨x, hx, hxb⟩
  · rw [key a]
    simp [h2]

def c4File : ModelFile :=
  mkModelFile "t.s" []
    [ ⟨"B", "t.s", .concept, false, none, []⟩,
      ⟨"A", "t.s", .concept, false, some "t.s.B", []⟩ ]

def c4State : Manager := [("concerto", rootFile), ("t.s", c4File)]

theorem claim_c4_witness :
    BaseModelManager.derivesFrom c4State 2 "t.s.A" "t.s.B" = .ok true ∧
    BaseModelManager.derivesFrom c4State 2 "t.s.A" "t.s.A" = .ok true := by
  have h := claim_c4 c4State "t.s.A" "t.s.B"
    ⟨"A", "t.s", .concept, false, some "t.s.B", []⟩ 1 rfl rfl
  refine ⟨h.1.mpr (Or.inr ?_), h.2⟩
  exact ⟨⟨"B", "t.s", .concept, false, none, []⟩, by decide, by decide⟩

/-- Claim C9: a pattern the regular-expression engine rejects makes the
validator's construction report a model error, and at instance-validation
time `validate` errors exactly when the value is non-null and fails the
compiled regular expression; a null value always passes. -/
theorem claim_c9 {R : Type} (eng : RegexEngine R) (pattern : String)
    (flags : Option String) :
    (∀ msg, flags = none → eng.compile pattern none = .error msg →
      StringValidator.make eng pattern flags = .error (.illegalModel msg)) ∧
    (∀ msg fl, flags = some fl → fl ≠ "" →
      eng.compile pattern (some fl) = .error msg →
      StringValidator.make eng pattern flags = .error (.illegalModel msg)) ∧
    (∀ (v : StringValidatorS R) (identifier : String)
        (value : Option String),
      ((∃ e, StringValidator.validate eng v identifier value = .error e) ↔
        ∃ s, value = some s ∧ eng.test v.regex s = false) ∧
      (value = none →
        StringValidator.validate eng v identifier value = .ok ())) := by
  refine ⟨?_, ?_, ?_⟩
  · intro msg hf hc
    rw [StringValidator.make.eq_def, hf, hc]
  · intro msg fl hf hne hc
    rw [StringValidator.make.eq_def, hf]
    dsimp only
    rw [if_neg hne, hc]
  · intro v identifier value
    constructor
    · constructor
      · intro hex
        obtain ⟨e, he⟩ := hex
        cases value with
        | none =>
          rw [StringValidator.validate] at he
          cases he
        | some s =>
          rw [StringValidator.validate] at he
          by_cases ht : eng.test v.regex s = true
          · rw [if_pos ht] at he
            cases he
          · exact ⟨s, rfl, by simpa using ht⟩
      · intro hex
        obtain ⟨s, hs, ht⟩ := hex
        rw [hs, StringValidator.validate, if_neg (by simp [ht])]
        exact ⟨_, rfl⟩
    · intro hn
      rw [hn, StringValidator.validate]

def c9Engine : RegexEngine Unit :=
  ⟨fun p _ => if p = "(" then .error "Invalid regular expression" else .ok (),
   fun _ s => s == "match"⟩

theorem claim_c9_witness :
    StringValidator.make c9Engine "(" none
      = .error (.illegalModel "Invalid regular expression") ∧
    (∃ e, StringValidator.validate c9Engine ⟨"abc", ()⟩ "id" (some "nope")
      = .error e) ∧
    StringValidator.validate c9Engine ⟨"abc", ()⟩ "id" none = .ok () := by
  have h := claim_c9 c9Engine "(" (Option.none (α := String))
  have h2 := claim_c9 c9Engine "abc" (Option.none (α := String))
  refine ⟨h.1 "Invalid regular expression" rfl rfl, ?_, ?_⟩
  · exact (h2.2.2 ⟨"abc", ()⟩ "id" (some "nope")).1.mpr ⟨"nope", rfl, rfl⟩
  · exact (h2.2.2 ⟨"abc", ()⟩ "id" none).2 rfl

theorem serializeProps_error_mid (v : Bool) (inst : InstanceV)
    (pre : List PropertyDecl) (p : PropertyDecl) (post : List PropertyDecl)
    (e : CErr) (hpre : ∀ q ∈ pre, ∃ r, serializeProp v inst q = .ok r)
    (hp : serializeProp v inst p = .error e) :
    serializeProps v inst (pre ++ p :: post) = .error e := by
  induction pre with
  | nil => simp [serializeProps, hp]
  | cons q qs ih =>
    obtain ⟨r, hr⟩ := hpre q (by simp)
    have hrest := ih (fun x hx => hpre x (by simp [hx]))
    simp only [List.cons_append, serializeProps, hr]
    rw [show qs.append (p :: post) = qs ++ p :: post from rfl, hrest]

/-- The output list of `serializeProps` when every property serializes
without error. -/
def collectProps (v : Bool) (inst : InstanceV) (l : List PropertyDecl) :
    List (String × JValue) :=
  l.filterMap (fun q =>
    match serializeProp v inst q with
    | .ok (some kv) => some kv
    | _ => none)

theorem serializeProps_ok_all (v : Bool) (inst : InstanceV)
    (l : List PropertyDecl)
    (hall : ∀ q ∈ l, ∃ r, serializeProp v inst q = .ok r) :
    serializeProps v inst l = .ok (collectProps v inst l) := by
  induction l with
  | nil => rfl
  | cons q qs ih =>
    obtain ⟨r, hr⟩ := hall q (by simp)
    have hrest := ih (fun x hx => hall x (by simp [hx]))
    cases r with
    | none => simp [serializeProps, hr, hrest, collectProps, List.filterMap_cons, hr]
    | some kv => simp [serializeProps, hr, hrest, collectProps, List.filterMap_cons, hr]

theorem serializeProp_false (inst : InstanceV) (p : PropertyDecl) :
    serializeProp false inst p
      = .ok ((lookupVal inst.values p.name).map (fun v => (p.name, v))) := by
  rw [serializeProp.eq_def]
  cases hl : lookupVal inst.values p.name with
  | none => simp
  | some v =>
    cases v <;> (try simp only [Bool.false_and, Bool.false_eq_true, if_false]) <;> rfl

theorem collect_false_not_mem (inst : InstanceV) (l : List PropertyDecl)
    (pname : String) (w : JValue)
    (hmiss : lookupVal inst.values pname = none) :
    (pname, w) ∉ collectProps false inst l := by
  intro hmem
  obtain ⟨q, hq, hg⟩ := List.mem_filterMap.mp hmem
  rw [serializeProp_false inst q] at hg
  cases hl : lookupVal inst.values q.name with
  | none =>
    rw [hl] at hg
    cases hg
  | some v =>
    rw [hl] at hg
    dsimp only [Option.map] at hg
    cases hg
    rw [hl] at hmiss
    cases hmiss

/-- Claim C3: with validation in force (the default when neither the
serializer defaults nor the call options set `validate`, or when the call
sets `validate := true`), `toJSON` fails on an instance missing a
non-optional property with the model-violation message naming
`FQN#identifier` and the missing field; with `validate := false` (per call,
or inherited from the defaults when the call is silent) the same instance
serializes and the missing field is simply absent from the emitted object;
a per-call flag overrides the serializer default in both directions. -/
theorem claim_c3 (defaults : SerOptions) (decl : ClassDecl)
    (inst : InstanceV) (p : PropertyDecl) (pre post : List PropertyDecl)
    (hdecomp : decl.properties = pre ++ p :: post)
    (hreq : p.isOptional = false)
    (hmiss : lookupVal inst.values p.name = none)
    (hpre : ∀ q ∈ pre, ∃ r, serializeProp true inst q = .ok r)
    (hname1 : p.name ≠ "$class") (hname2 : p.name ≠ "$identifier") :
    (defaults.validate = none →
      Serializer.toJSON defaults decl inst noOptions
        = .error (.validationError (missingFieldMsg inst p.name))) ∧
    (∀ opts : SerOptions, opts.validate = some true →
      Serializer.toJSON defaults decl inst opts
        = .error (.validationError (missingFieldMsg inst p.name))) ∧
    (∀ opts : SerOptions, opts.validate = some false →
      ∃ flds, Serializer.toJSON defaults decl inst opts = .ok (.obj flds) ∧
        ∀ w, (p.name, w) ∉ flds) ∧
    (defaults.validate = some false →
      ∃ flds, Serializer.toJSON defaults decl inst noOptions
          = .ok (.obj flds) ∧
        ∀ w, (p.name, w) ∉ flds) := by
  have herr : serializeProp true inst p
      = .error (.validationError (missingFieldMsg inst p.name)) := by
    rw [serializeProp.eq_def, hmiss]
    simp [hreq]
  have hfail : serializeProps true inst decl.properties
      = .error (.validationError (missingFieldMsg inst p.name)) := by
    rw [hdecomp]
    exact serializeProps_error_mid true inst pre p post _ hpre herr
  have hfalseOk : ∀ opts : SerOptions, effectiveValidate defaults opts = false →
      ∃ flds, Serializer.toJSON defaults decl inst opts = .ok (.obj flds) ∧
        ∀ w, (p.name, w) ∉ flds := by
    intro opts heff
    have hallFalse : ∀ q ∈ decl.properties, ∃ r,
        serializeProp false inst q = .ok r :=
      fun q _ => ⟨_, serializeProp_false inst q⟩
    have hser := serializeProps_ok_all false inst decl.properties hallFalse
    refine ⟨_, by rw [Serializer.toJSON, heff, hser], ?_⟩
    intro w hw
    rcases List.mem_cons.mp hw with hc | hc
    · exact hname1 (congrArg Prod.fst hc)
    rcases List.mem_append.mp hc with hi | hi
    · cases hid : inst.identifier with
      | none =>
        rw [hid] at hi
        cases hi
      | some i =>
        rw [hid] at hi
        rcases List.mem_cons.mp hi with hc2 | hc2
        · exact hname2 (congrArg Prod.fst hc2)
        · cases hc2
    · exact collect_false_not_mem inst decl.properties p.name w hmiss hi
  refine ⟨?_, ?_, ?_, ?_⟩
  · intro hdef
    rw [Serializer.toJSON,
      show effectiveValidate defaults noOptions = true by
        rw [effectiveValidate, noOptions, hdef], hfail]
  · intro opts hopt
    rw [Serializer.toJSON,
      show effectiveValidate defaults opts = true by
        rw [effectiveValidate, hopt], hfail]
  · intro opts hopt
    exact hfalseOk opts (by rw [effectiveValidate, hopt])
  · intro hdef
    exact hfalseOk noOptions (by rw [effectiveValidate, noOptions, hdef])

def assetIdProp : PropertyDecl := ⟨"assetId", "String", false, false, false⟩

def ownerProp : PropertyDecl :=
  ⟨"owner", "org.acme.sample.SampleParticipant", false, false, true⟩

def stringValueProp : PropertyDecl :=
  ⟨"stringValue", "String", false, false, false⟩

def doubleValueProp : PropertyDecl :=
  ⟨"doubleValue", "Double", false, false, false⟩

/-- The `SampleAsset` declaration of the serializer tests. -/
def sampleAssetDecl : ClassDecl :=
  ⟨"SampleAsset", "org.acme.sample", .asset, false, some "concerto.Asset",
    [assetIdProp, ownerProp, stringValueProp, doubleValueProp]⟩

/-- A `SampleAsset` instance carrying only its identifier field, as in the
missing-required-field serializer tests. -/
def c3Inst : InstanceV :=
  ⟨"org.acme.sample.SampleAsset", some "1", [("assetId", .str "1")]⟩

theorem claim_c3_witness :
    missingFieldMsg c3Inst "owner"
      = "The instance \"org.acme.sample.SampleAsset#1\" is missing the required field \"owner\"." ∧
    Serializer.toJSON noOptions sampleAssetDecl c3Inst noOptions
      = .error (.validationError (missingFieldMsg c3Inst "owner")) ∧
    (∃ flds, Serializer.toJSON noOptions sampleAssetDecl c3Inst ⟨some false⟩
        = .ok (.obj flds) ∧ ∀ w, ("owner", w) ∉ flds) ∧
    Serializer.toJSON ⟨some false⟩ sampleAssetDecl c3Inst ⟨some true⟩
      = .error (.validationError (missingFieldMsg c3Inst "owner")) := by
  have hp : ∀ q ∈ [assetIdProp], ∃ r, serializeProp true c3Inst q = .ok r := by
    intro q hq
    rw [List.mem_singleton] at hq
    subst hq
    exact ⟨_, rfl⟩
  have h := claim_c3 noOptions sampleAssetDecl c3Inst ownerProp [assetIdProp]
    [stringValueProp, doubleValueProp] rfl rfl rfl hp (by decide) (by decide)
  have h2 := claim_c3 ⟨some false⟩ sampleAssetDecl c3Inst ownerProp
    [assetIdProp] [stringValueProp, doubleValueProp] rfl rfl rfl hp
    (by decide) (by decide)
  exact ⟨by decide, h.1 rfl, h.2.2.1 ⟨some false⟩ rfl, h2.2.1 ⟨some true⟩ rfl⟩

/-- Claim C7: with validation in force, `toJSON` rejects every non-finite
numeric value in a `Double` field with the model-violation message naming
`FQN#identifier`, the field and the non-finite value; a finite value in the
same field is emitted as an ordinary JSON number. -/
theorem claim_c7 (defaults opts : SerOptions) (decl : ClassDecl)
    (inst : InstanceV) (p : PropertyDecl) (pre post : List PropertyDecl)
    (n : JSNum) (hdecomp : decl.properties = pre ++ p :: post)
    (hdouble : p.ptype = "Double")
    (hlk : lookupVal inst.values p.name = some (.num n))
    (hval : effectiveValidate defaults opts = true)
    (hpre : ∀ q ∈ pre, ∃ r, serializeProp true inst q = .ok r) :
    (n.isFinite = false →
      Serializer.toJSON defaults decl inst opts
        = .error (.validationError (nonFiniteMsg inst p.name n))) ∧
    (∀ x : Rat, n = .finite x →
      (∀ q ∈ decl.properties, ∃ r, serializeProp true inst q = .ok r) →
      ∃ flds, Serializer.toJSON defaults decl inst opts = .ok (.obj flds) ∧
        (p.name, .num (.finite x)) ∈ flds) := by
  constructor
  · intro hnf
    have herr : serializeProp true inst p
        = .error (.validationError (nonFiniteMsg inst p.name n)) := by
      rw [serializeProp.eq_def, hlk]
      simp [hdouble, isNumericPrimitive, hnf]
    have hfail : serializeProps true inst decl.properties
        = .error (.validationError (nonFiniteMsg inst p.name n)) := by
      rw [hdecomp]
      exact serializeProps_error_mid true inst pre p post _ hpre herr
    rw [Serializer.toJSON, hval, hfail]
  · intro x hx hall
    have hser := serializeProps_ok_all true inst decl.properties hall
    refine ⟨_, by rw [Serializer.toJSON, hval, hser], ?_⟩
    have hpm : p ∈ decl.properties := by
      rw [hdecomp]
      exact List.mem_append_right _ (List.mem_cons_self _ _)
    have hprop : serializeProp true inst p
        = .ok (some (p.name, .num (.finite x))) := by
      rw [serializeProp.eq_def, hlk, hx]
      simp
      exact fun _ => rfl
    have hmem : (p.name, JValue.num (.finite x))
        ∈ collectProps true inst decl.properties := by
      refine List.mem_filterMap.mpr ⟨p, hpm, ?_⟩
      rw [hprop]
    refine List.mem_cons_of_mem _ (List.mem_append_right _ hmem)

/-- A `SampleAsset` instance whose `doubleValue` is the JavaScript `NaN`,
as in the non-finite serializer tests. -/
def c7InstNaN : InstanceV :=
  ⟨"org.acme.sample.SampleAsset", some "1",
    [("assetId", .str "1"),
     ("owner", .str "resource:org.acme.sample.SampleParticipant#alice@email.com"),
     ("stringValue", .str "the value"),
     ("doubleValue", .num .nan)]⟩

/-- The same instance with a finite `doubleValue` of 3.14. -/
def c7InstPi : InstanceV :=
  ⟨"org.acme.sample.SampleAsset", some "1",
    [("assetId", .str "1"),
     ("owner", .str "resource:org.acme.sample.SampleParticipant#alice@email.com"),
     ("stringValue", .str "the value"),
     ("doubleValue", .num (.finite 3.14))]⟩

theorem claim_c7_witness :
    nonFiniteMsg c7InstNaN "doubleValue" .nan
      = "Model violation in the \"org.acme.sample.SampleAsset#1\" instance. The field \"doubleValue\" has a value of \"NaN\"." ∧
    Serializer.toJSON noOptions sampleAssetDecl c7InstNaN noOptions
      = .error (.validationError (nonFiniteMsg c7InstNaN "doubleValue" .nan)) ∧
    (∃ flds, Serializer.toJSON noOptions sampleAssetDecl c7InstPi noOptions
        = .ok (.obj flds) ∧ ("doubleValue", .num (.finite 3.14)) ∈ flds) := by
  have hpreN : ∀ q ∈ [assetIdProp, ownerProp, stringValueProp],
      ∃ r, serializeProp true c7InstNaN q = .ok r := by
    intro q hq
    rcases List.mem_cons.mp hq with h1 | hq
    · subst h1; exact ⟨_, rfl⟩
    rcases List.mem_cons.mp hq with h1 | hq
    · subst h1; exact ⟨_, rfl⟩
    rw [List.mem_singleton] at hq
    subst hq
    exact ⟨_, rfl⟩
  have hprePi : ∀ q ∈ [assetIdProp, ownerProp, stringValueProp],
      ∃ r, serializeProp true c7InstPi q = .ok r := by
    intro q hq
    rcases List.mem_cons.mp hq with h1 | hq
    · subst h1; exact ⟨_, rfl⟩
    rcases List.mem_cons.mp hq with h1 | hq
    · subst h1; exact ⟨_, rfl⟩
    rw [List.mem_singleton] at hq
    subst hq
    exact ⟨_, rfl⟩
  have hallPi : ∀ q ∈ sampleAssetDecl.properties,
      ∃ r, serializeProp true c7InstPi q = .ok r := by
    intro q hq
    rcases List.mem_cons.mp hq with h1 | hq
    · subst h1; exact ⟨_, rfl⟩
    rcases List.mem_cons.mp hq with h1 | hq
    · subst h1; exact ⟨_, rfl⟩
    rcases List.mem_cons.mp hq with h1 | hq
    · subst h1; exact ⟨_, rfl⟩
    rw [List.mem_singleton] at hq
    subst hq
    exact ⟨_, rfl⟩
  have hN := claim_c7 noOptions noOptions sampleAssetDecl c7InstNaN
    doubleValueProp [assetIdProp, ownerProp, stringValueProp] [] .nan
    rfl rfl rfl rfl hpreN
  have hPi := claim_c7 noOptions noOptions sampleAssetDecl c7InstPi
    doubleValueProp [assetIdProp, ownerProp, stringValueProp] []
    (.finite 3.14) rfl rfl rfl rfl hprePi
  exact ⟨by decide, hN.1 rfl, hPi.2 3.14 rfl hallPi⟩

/-- Claim C6: when the (concrete) declared type of an object field is
already on the generator's seen stack, a required scalar field fails with
the model-is-recursive error, an optional scalar field generated with
`includeOptionalFields = true` yields no value, and an array field yields
the empty array — under every value-generation strategy, in particular the
sample strategy. -/
theorem claim_c6 (st : Manager) (vg : ValueGenerator) (seen : List String)
    (f : PropertyDecl) (d : ClassDecl) (n : Nat)
    (hnp : ModelUtil.isPrimitiveType f.ptype = false)
    (hnr : f.isRelationship = false)
    (hd : getTypeDecl st f.ptype = some d)
    (hne : d.kind ≠ DeclKind.enum)
    (hconc : d.isAbstract = false)
    (hfqn : d.getFullyQualifiedName = f.ptype)
    (hseen : seen.contains f.ptype = true) :
    (∀ io : Bool, f.isArray = false → f.isOptional = false →
      genField st vg io (n + 1) seen f
        = .error (.recursionError "Model is recursive.")) ∧
    (f.isArray = false → f.isOptional = true →
      genField st vg true (n + 1) seen f = .ok none) ∧
    (∀ io : Bool, f.isArray = true → (f.isOptional = false ∨ io = true) →
      genField st vg io (n + 1) seen f = .ok (some (.arr []))) := by
  have hfind : findConcreteSubclass st d = some d := by
    rw [findConcreteSubclass, hconc]
    rfl
  have hbody : ∀ io, genField st vg io (n + 1) seen f
      = genFieldAux st vg io (genField st vg io n) seen f := fun _ => rfl
  have hcore : ∀ (io : Bool), (f.isOptional && !io) = false →
      genFieldAux st vg io (genField st vg io n) seen f
        = (if f.isArray then .ok (some (.arr []))
           else if f.isOptional then .ok none
           else .error (.recursionError "Model is recursive.")) := by
    intro io hguard
    rw [genFieldAux.eq_def, hguard, hnp, hd, hnr]
    simp only [Bool.false_eq_true, if_false]
    cases hk : d.kind with
    | enum => exact absurd hk hne
    | asset =>
      rw [hfind]
      dsimp only
      rw [hfqn, hseen]
      simp
    | participant =>
      rw [hfind]
      dsimp only
      rw [hfqn, hseen]
      simp
    | transaction =>
      rw [hfind]
      dsimp only
      rw [hfqn, hseen]
      simp
    | event =>
      rw [hfind]
      dsimp only
      rw [hfqn, hseen]
      simp
    | concept =>
      rw [hfind]
      dsimp only
      rw [hfqn, hseen]
      simp
  refine ⟨?_, ?_, ?_⟩
  · intro io ha ho
    rw [hbody io, hcore io (by rw [ho]; rfl), ha, ho]
    simp
  · intro ha ho
    rw [hbody true, hcore true (by rw [ho]; rfl), ha, ho]
    simp
  · intro io ha ho
    rw [hbody io, hcore io ?_, ha]
    · simp
    · rcases ho with ho | ho
      · rw [ho]
        rfl
      · rw [ho]
        simp

def c6Decl : ClassDecl :=
  ⟨"MyAsset", "org.acme.test", .asset, false, some "concerto.Asset",
    [⟨"assetId", "String", false, false, false⟩,
     ⟨"theValues", "org.acme.test.MyAsset", false, false, false⟩]⟩

def c6File : ModelFile := mkModelFile "org.acme.test" [] [c6Decl]

def c6State : Manager := [("concerto", rootFile), ("org.acme.test", c6File)]

/-- A sample-strategy value generator. -/
def sampleVG : ValueGenerator :=
  ⟨fun _ => .str "sample", fun l => l.head?, true, "0000"⟩

theorem claim_c6_witness :
    genField c6State sampleVG false 3 ["org.acme.test.MyAsset"]
      ⟨"theValues", "org.acme.test.MyAsset", false, false, false⟩
      = .error (.recursionError "Model is recursive.") ∧
    genField c6State sampleVG true 3 ["org.acme.test.MyAsset"]
      ⟨"theValues", "org.acme.test.MyAsset", false, true, false⟩
      = .ok none ∧
    genField c6State sampleVG true 3 ["org.acme.test.MyAsset"]
      ⟨"theValues", "org.acme.test.MyAsset", true, false, false⟩
      = .ok (some (.arr [])) := by
  have h1 := claim_c6 c6State sampleVG ["org.acme.test.MyAsset"]
    ⟨"theValues", "org.acme.test.MyAsset", false, false, false⟩ c6Decl 2
    rfl rfl rfl (by decide) rfl rfl rfl
  have h2 := claim_c6 c6State sampleVG ["org.acme.test.MyAsset"]
    ⟨"theValues", "org.acme.test.MyAsset", false, true, false⟩ c6Decl 2
    rfl rfl rfl (by decide) rfl rfl rfl
  have h3 := claim_c6 c6State sampleVG ["org.acme.test.MyAsset"]
    ⟨"theValues", "org.acme.test.MyAsset", true, false, false⟩ c6Decl 2
    rfl rfl rfl (by decide) rfl rfl rfl
  exact ⟨h1.1 false rfl rfl, h2.2.1 rfl rfl, h3.2.2 true rfl (Or.inl rfl)⟩

theorem dot_of_getNamespace_ne (q : String)
    (h : ModelUtil.getNamespace q ≠ "") : '.' ∈ q.data := by
  by_cases hm : '.' ∈ q.data
  · exact hm
  · exact absurd (by rw [ModelUtil.getNamespace, if_neg hm]) h

theorem dropWhile_head_false (p : Char → Bool) :
    ∀ (l : List Char) (c : Char) (rest : List Char),
      l.dropWhile p = c :: rest → p c = false := by
  intro l
  induction l with
  | nil =>
    intro c rest h
    cases h
  | cons a as ih =>
    intro c rest h
    rw [List.dropWhile_cons] at h
    by_cases hp : p a = true
    · rw [if_pos hp] at h
      exact ih c rest h
    · rw [if_neg hp] at h
      cases h
      simpa using hp

theorem fqn_decomp (q : String) (h : '.' ∈ q.data) :
    ModelUtil.getNamespace q ++ "." ++ ModelUtil.getShortName q = q ∧
    '.' ∉ (ModelUtil.getShortName q).data := by
  have hrev : '.' ∈ q.data.reverse := List.mem_reverse.mpr h
  set rev := q.data.reverse with hrevdef
  have hqd : rev.reverse = q.data := by
    rw [hrevdef, List.reverse_reverse]
  have hsplit := List.takeWhile_append_dropWhile
    (p := fun c => c != '.') (l := rev)
  cases hdw : rev.dropWhile (fun c => c != '.') with
  | nil =>
    exfalso
    rw [hdw, List.append_nil] at hsplit
    have hall := List.mem_takeWhile_imp (hsplit ▸ hrev)
    simp at hall
  | cons c rest =>
    have hc : (c != '.') = false := dropWhile_head_false _ _ c rest hdw
    have hcd : c = '.' := by simpa using hc
    subst hcd
    rw [hdw] at hsplit
    have hq : q.data
        = rest.reverse ++ '.' :: (rev.takeWhile (fun c => c != '.')).reverse := by
      have h2 : (List.takeWhile (fun c => c != '.') rev ++ '.' :: rest).reverse
          = rest.reverse ++ '.' :: (rev.takeWhile (fun c => c != '.')).reverse := by
        simp
      rw [← h2, hsplit, hqd]
    have hshort : ModelUtil.getShortName q
        = String.mk ((rev.takeWhile (fun c => c != '.')).reverse) := rfl
    have hns : ModelUtil.getNamespace q = String.mk rest.reverse := by
      rw [ModelUtil.getNamespace, if_pos h]
      rw [show q.data.reverse.dropWhile (fun c => c != '.')
          = '.' :: rest from hdw]
      rfl
    constructor
    · apply String.ext
      rw [fqn_data, hns, hshort]
      exact hq.symm
    · rw [hshort]
      intro hmem
      have hx := List.mem_takeWhile_imp (List.mem_reverse.mp hmem)
      simp at hx

theorem assocLast_isSome_acc (l : List α) (key : α → String) (val : α → β)
    (k : String) :
    ∀ acc : Option β, (∃ x ∈ l, key x = k) ∨ acc.isSome = true →
      (l.foldl (fun acc x => if key x = k then some (val x) else acc)
        acc).isSome = true := by
  induction l with
  | nil =>
    intro acc h
    rcases h with ⟨x, hx, _⟩ | h
    · cases hx
    · exact h
  | cons a as ih =>
    intro acc h
    rw [List.foldl_cons]
    by_cases hka : key a = k
    · exact ih _ (Or.inr (by rw [if_pos hka]; rfl))
    · rcases h with ⟨x, hx, hk⟩ | hs
      · rcases List.mem_cons.mp hx with he | hm
        · exact absurd (he ▸ hk) hka
        · exact ih _ (Or.inl ⟨x, hm, hk⟩)
      · exact ih _ (Or.inr (by rw [if_neg hka]; exact hs))

theorem assocLast_isSome_of_mem (l : List α) (key : α → String)
    (val : α → β) (k : String) (x : α) (hx : x ∈ l) (hk : key x = k) :
    (assocLast l key val k).isSome = true :=
  assocLast_isSome_acc l key val k none (Or.inl ⟨x, hx, hk⟩)

/-- Claim C1 (amended): for a non-primitive short name `T`,
`ModelFile.getType` consults the imports before the local declarations:
when `T` is neither a named nor a wildcard import, a local declaration is
returned (and `getFullyQualifiedTypeName` returns its FQN); when `T`
appears in the named-import map, resolution goes through the imported FQN
even when `T` is also declared locally. -/
theorem claim_c1 (st : Manager) (m : ModelFile) (T : String)
    (hnp : ModelUtil.isPrimitiveType T = false) :
    (m.isImportedType st T = false → ∀ d, m.getLocalType T = some d →
      m.getType st T = some (.decl d) ∧
      m.getFullyQualifiedTypeName st T = some d.getFullyQualifiedName) ∧
    (∀ fqn, m.importShortNamesGet T = some fqn →
      m.getType st T
        = (match getModelFile st (ModelUtil.getNamespace fqn) with
           | none => none
           | some f => (f.getLocalType fqn).map TypeRes.decl)) := by
  constructor
  · intro himp d hd
    constructor
    · rw [ModelFile.getType, if_neg (by rw [hnp]; simp), if_neg (by rw [himp]; simp), hd]
      rfl
    · rw [ModelFile.getFullyQualifiedTypeName, if_neg (by rw [hnp]; simp),
        if_neg (by rw [himp]; simp), hd]
      rfl
  · intro fqn hfqn
    have himp : m.isImportedType st T = true := by
      rw [ModelFile.isImportedType, hfqn]
      rfl
    have hres : m.resolveImport st T = some fqn := by
      rw [ModelFile.resolveImport, hfqn]
    rw [ModelFile.getType, if_neg (by rw [hnp]; simp), if_pos himp, hres]

def c1DeclLocal : ClassDecl := ⟨"T", "a.b", .concept, false, none, []⟩

def c1DeclForeign : ClassDecl := ⟨"T", "c.d", .concept, false, none, []⟩

/-- A file in namespace `a.b` that both declares `T` and imports `T` by
name from `c.d`. -/
def c1FileNamed : ModelFile :=
  mkModelFile "a.b" [.typeImport "c.d" "T"] [c1DeclLocal]

/-- A file in namespace `a.b` that declares `T` and wildcard-imports
`c.d`, which also declares `T`. -/
def c1FileWild : ModelFile :=
  mkModelFile "a.b" [.allImport "c.d"] [c1DeclLocal]

def c1FileCD : ModelFile := mkModelFile "c.d" [] [c1DeclForeign]

def c1StateNamed : Manager :=
  [("concerto", rootFile), ("a.b", c1FileNamed), ("c.d", c1FileCD)]

def c1StateWild : Manager :=
  [("concerto", rootFile), ("a.b", c1FileWild), ("c.d", c1FileCD)]

theorem claim_c1_counterexample :
    c1FileNamed.getLocalType "T" = some c1DeclLocal ∧
    c1FileNamed.getType c1StateNamed "T" = some (.decl c1DeclForeign) ∧
    c1FileNamed.getFullyQualifiedTypeName c1StateNamed "T" = some "c.d.T" ∧
    "c.d.T" ≠ "a.b.T" ∧
    c1FileWild.getLocalType "T" = some c1DeclLocal ∧
    c1FileWild.getType c1StateWild "T" = some (.decl c1DeclForeign) := by
  exact ⟨rfl, rfl, rfl, by decide, rfl, rfl⟩

theorem claim_c1_witness :
    c1FileCD.getType c1StateNamed "T" = some (.decl c1DeclForeign) ∧
    c1FileCD.getFullyQualifiedTypeName c1StateNamed "T" = some "c.d.T" ∧
    c1FileNamed.getType c1StateNamed "T"
      = ((c1FileCD.getLocalType "c.d.T").map TypeRes.decl) := by
  have h1 := claim_c1 c1StateNamed c1FileCD "T" rfl
  have h2 := claim_c1 c1StateNamed c1FileNamed "T" rfl
  refine ⟨(h1.1 rfl c1DeclForeign rfl).1, ?_, h2.2 "c.d.T" rfl⟩
  exact (h1.1 rfl c1DeclForeign rfl).2

theorem importShortNamesGet_none_of_dot (m : ModelFile) (q : String)
    (hdot : '.' ∈ q.data)
    (himp : ∀ pr ∈ m.importShortNames, '.' ∉ pr.1.data) :
    m.importShortNamesGet q = none :=
  assocLast_eq_none _ _ _ _ (fun pr hpr he => himp pr hpr (he.symm ▸ hdot))

/-- If a model file registered under key `w` reports an FQN of the shape
`nsq.sq` (with a dot-free short name) as one of its local types, then `w`
is exactly `nsq` and the `localTypes` lookup on the file succeeds. -/
theorem isLocalType_fqn (st : Manager) (q nsq sq : String) (w : String)
    (fw : ModelFile) (hg : getModelFile st w = some fw)
    (hq : nsq ++ "." ++ sq = q) (hsq : '.' ∉ sq.data)
    (hwf : ∀ pr ∈ st, pr.2.ns = pr.1 ∧ pr.2.ns ≠ "" ∧
      ∀ dd ∈ pr.2.declarations, '.' ∉ dd.name.data)
    (hloc : fw.isLocalType q = true) :
    w = nsq ∧ (fw.localTypesGet q).isSome = true := by
  have hfw := hwf (w, fw) (getModelFile_mem st w fw hg)
  have hdot : '.' ∈ q.data := hq ▸ dot_mem_fqn nsq sq
  rw [ModelFile.isLocalType, Bool.and_eq_true] at hloc
  obtain ⟨-, hsome⟩ := hloc
  rw [ModelFile.getLocalType] at hsome
  by_cases hsw : strStartsWith q fw.ns = true
  · rw [if_pos hsw] at hsome
    cases hlt : fw.localTypesGet q with
    | none =>
      rw [hlt] at hsome
      cases hsome
    | some dd0 =>
      obtain ⟨dd, hdd, hkey, -⟩ := assocLast_some _ _ _ _ _ hlt
      have hdn := hfw.2.2 dd hdd
      have hsu := seg_unique fw.ns dd.name nsq sq hdn hsq (hkey.trans hq.symm)
      refine ⟨hfw.1.symm.trans hsu.1, ?_⟩
      rfl
  · rw [if_neg hsw] at hsome
    cases hlt : fw.localTypesGet (fw.ns ++ "." ++ q) with
    | none =>
      rw [hlt] at hsome
      cases hsome
    | some dd0 =>
      obtain ⟨dd, hdd, hkey, -⟩ := assocLast_some _ _ _ _ _ hlt
      have hdn := hfw.2.2 dd hdd
      have hname := str_append_cancel_left (fw.ns ++ ".") dd.name q hkey
      exact absurd (by rw [hname]; exact hdot) hdn

/-- Claim C5 (amended): for a loaded model file `m` and a dot-free short
name `t` declared in `m`, `manager.getType(m.namespace + "." + t)` returns
the declaration that `m.getLocalType(t)` returns, provided `m` does not
wildcard-import its own namespace and `t` does not begin with `m`'s
namespace as a string prefix; and `getType` fails with
`TypeNotFoundException` whenever the namespace part of the query is not
registered or the registered file declares no type with that key. -/
theorem claim_c5 (st : Manager) (m : ModelFile) (t : String) (d : ClassDecl)
    (hreg : getModelFile st m.ns = some m)
    (ht1 : '.' ∉ t.data)
    (himp : ∀ pr ∈ m.importShortNames, '.' ∉ pr.1.data)
    (hwf : ∀ pr ∈ st, pr.2.ns = pr.1 ∧ pr.2.ns ≠ "" ∧
      ∀ dd ∈ pr.2.declarations, '.' ∉ dd.name.data)
    (hwild : ∀ w ∈ m.importWildcardNamespaces, w ≠ m.ns)
    (hpre : strStartsWith t m.ns = false)
    (hd : m.getLocalType t = some d) :
    BaseModelManager.getType st (m.ns ++ "." ++ t) = .ok (.decl d) ∧
    (∀ q : String, getModelFile st (ModelUtil.getNamespace q) = none →
      BaseModelManager.getType st q = .error (.typeNotFound q)) ∧
    (∀ (q : String) (m2 : ModelFile),
      getModelFile st (ModelUtil.getNamespace q) = some m2 →
      (∀ pr ∈ m2.importShortNames, '.' ∉ pr.1.data) →
      m2.localTypesGet q = none →
      BaseModelManager.getType st q = .error (.typeNotFound q)) := by
  refine ⟨?_, ?_, ?_⟩
  · have hns : ModelUtil.getNamespace (m.ns ++ "." ++ t) = m.ns :=
      getNamespace_append m.ns t ht1
    have hdot : '.' ∈ (m.ns ++ "." ++ t).data := dot_mem_fqn m.ns t
    have hprim : ModelUtil.isPrimitiveType (m.ns ++ "." ++ t) = false :=
      notPrim_of_dot _ hdot
    have hnamed : m.importShortNamesGet (m.ns ++ "." ++ t) = none :=
      importShortNamesGet_none_of_dot m _ hdot himp
    have hany : m.importWildcardNamespaces.any (fun w =>
        match getModelFile st w with
        | some f => f.isLocalType (m.ns ++ "." ++ t)
        | none => false) = false := by
      rw [List.any_eq_false]
      intro w hw
      cases hg : getModelFile st w with
      | none => simp
      | some fw =>
        intro htrue
        have htrue2 : fw.isLocalType (m.ns ++ "." ++ t) = true := htrue
        have hcl := isLocalType_fqn st (m.ns ++ "." ++ t) m.ns t w fw hg rfl
          ht1 hwf htrue2
        exact hwild w hw hcl.1
    have himported : m.isImportedType st (m.ns ++ "." ++ t) = false := by
      rw [ModelFile.isImportedType, hnamed]
      simp [hany]
    have hgt : m.getType st (m.ns ++ "." ++ t) = some (.decl d) := by
      rw [ModelFile.getType, if_neg (by rw [hprim]; simp),
        if_neg (by rw [himported]; simp)]
      rw [ModelFile.getLocalType, if_pos (startsWith_append_self m.ns t)]
      rw [ModelFile.getLocalType, if_neg (by rw [hpre]; simp)] at hd
      rw [hd]
      rfl
    rw [BaseModelManager.getType, hns, hreg]
    dsimp only
    rw [hgt]
  · intro q hnone
    rw [BaseModelManager.getType, hnone]
  · intro q m2 hm2 himp2 hloc
    have hm2wf := hwf _ (getModelFile_mem st _ m2 hm2)
    dsimp only at hm2wf
    have hnsne : ModelUtil.getNamespace q ≠ "" := by
      intro he
      exact hm2wf.2.1 (hm2wf.1.trans he)
    have hdot : '.' ∈ q.data := dot_of_getNamespace_ne q hnsne
    obtain ⟨hdecomp, hsq⟩ := fqn_decomp q hdot
    have hprim := notPrim_of_dot q hdot
    have hnamed := importShortNamesGet_none_of_dot m2 q hdot himp2
    have hany : m2.importWildcardNamespaces.any (fun w =>
        match getModelFile st w with
        | some f => f.isLocalType q
        | none => false) = false := by
      rw [List.any_eq_false]
      intro w hw
      cases hg : getModelFile st w with
      | none => simp
      | some fw =>
        intro htrue
        have htrue2 : fw.isLocalType q = true := htrue
        have hcl := isLocalType_fqn st q (ModelUtil.getNamespace q)
          (ModelUtil.getShortName q) w fw hg hdecomp hsq hwf htrue2
        have hgw : getModelFile st (ModelUtil.getNamespace q) = some fw :=
          hcl.1 ▸ hg
        have hfm : fw = m2 := Option.some.inj (hgw.symm.trans hm2)
        have hsome := hcl.2
        rw [hfm, hloc] at hsome
        cases hsome
    have himported : m2.isImportedType st q = false := by
      rw [ModelFile.isImportedType, hnamed]
      simp [hany]
    have hsw := startsWith_append_self (ModelUtil.getNamespace q)
      (ModelUtil.getShortName q)
    rw [hdecomp] at hsw
    rw [← hm2wf.1] at hsw
    have hgt : m2.getType st q = none := by
      rw [ModelFile.getType, if_neg (by rw [hprim]; simp),
        if_neg (by rw [himported]; simp)]
      rw [ModelFile.getLocalType, if_pos hsw, hloc]
      rfl
    rw [BaseModelManager.getType, hm2]
    dsimp only
    rw [hgt]

def c5DeclT : ClassDecl := ⟨"T", "a.b", .concept, false, none, []⟩

/-- A model file that wildcard-imports its own namespace; `validate`
accepts it. -/
def c5FileSelfWild : ModelFile :=
  mkModelFile "a.b" [.allImport "a.b"] [c5DeclT]

def c5StateSelfWild : Manager := [("concerto", rootFile), ("a.b", c5FileSelfWild)]

def c5DeclAB : ClassDecl := ⟨"ab", "a", .concept, false, none, []⟩

/-- A file whose namespace is a string prefix of one of its declaration
names. -/
def c5FileShort : ModelFile := mkModelFile "a" [] [c5DeclAB]

def c5StateShort : Manager := [("concerto", rootFile), ("a", c5FileShort)]

theorem claim_c5_counterexample :
    c5FileSelfWild.validateE c5StateSelfWild dvOk = .ok () ∧
    c5FileSelfWild.getLocalType "T" = some c5DeclT ∧
    BaseModelManager.getType c5StateSelfWild "a.b.T"
      = .error (.typeNotFound "a.b.T") ∧
    BaseModelManager.getType c5StateShort "a.ab" = .ok (.decl c5DeclAB) ∧
    c5FileShort.getLocalType "ab" = none :=
  ⟨rfl, rfl, rfl, rfl, rfl⟩

def c5Decl : ClassDecl := ⟨"Thing", "org.acme", .concept, false, none, []⟩

def c5File : ModelFile := mkModelFile "org.acme" [] [c5Decl]

def c5State : Manager := [("concerto", rootFile), ("org.acme", c5File)]

theorem claim_c5_witness :
    BaseModelManager.getType c5State "org.acme.Thing" = .ok (.decl c5Decl) ∧
    BaseModelManager.getType c5State "no.where.X"
      = .error (.typeNotFound "no.where.X") ∧
    BaseModelManager.getType c5State "org.acme.Missing"
      = .error (.typeNotFound "org.acme.Missing") := by
  have h := claim_c5 c5State c5File "Thing" c5Decl rfl (by decide)
    (by decide) (by decide) (by decide) rfl rfl
  exact ⟨h.1, h.2.1 "no.where.X" rfl,
    h.2.2 "org.acme.Missing" c5File rfl (by decide) rfl⟩
